import Mathlib

/-!
Verification development for the `fs` filesystem search tool
(`src/main.rs`).  The program walks a directory tree breadth-first
(`crawl_bfs`), applying gitignore / hidden / pattern / extension filters,
and streams `Ok(path)` / `Err(e)` messages over a bounded mpsc channel
whose receiving end the consumer may drop at any time.

The embedding below models:
  * the pure filter predicates (`naive_pattern_match`, `file_matches`,
    `is_hidden`, `is_gitignored`, `build_gitignore`) directly from the
    source;
  * the filesystem as a tree of entries, including entries whose
    directory listing fails (`unreadableDir`, modelling a failing
    `fs::read_dir`) and entries whose metadata query fails (`badMeta`,
    modelling a failing `entry.metadata()`); per the program's external
    interface a directory listing fails as a whole, atomically;
  * the channel as a budget: `none` is a consumer that never closes the
    receiving end, `some k` a consumer that accepts `k` messages and then
    drops it.  `send` on a closed channel fails: the failure is ignored
    for `Err` sends (`let _ = tx.send(Err(..))`) and aborts `crawl_bfs`
    for `Ok` sends (`tx.send(Ok(path)).await?`).

Paths are relative to the search root, as the list of components appended
by the successive `join` calls of the walk; component names are directory
entry names (never empty, never `.` or `..`, no separators).
-/

namespace FS

/-- A path below the search root: the list of entry-name components. -/
abbrev RPath := List String

/-- Rust `str::starts_with(c)` for a single character. -/
def startsWithChar (s : String) (c : Char) : Bool :=
  match s.data with
  | [] => false
  | a :: _ => a == c

/-- Byte-wise ASCII lowercasing used by Rust `eq_ignore_ascii_case`. -/
def asciiLowerChar (c : Char) : Char :=
  if 65 ≤ c.toNat ∧ c.toNat ≤ 90 then Char.ofNat (c.toNat + 32) else c

/-- Rust `str::eq_ignore_ascii_case`. -/
def eqIgnoreAsciiCase (a b : String) : Bool :=
  a.data.map asciiLowerChar == b.data.map asciiLowerChar

/-- Rust `pat.replace('*', "")`: delete every `*`. -/
def removeStars (p : String) : String := ⟨p.data.filter (fun c => c != '*')⟩

/-- `needle` is a leading subsequence of the second list. -/
def prefixAt : List Char → List Char → Bool
  | [], _ => true
  | _ :: _, [] => false
  | a :: as, b :: bs => a == b && prefixAt as bs

/-- `needle` occurs contiguously somewhere in the list. -/
def occursIn (needle : List Char) : List Char → Bool
  | [] => needle.isEmpty
  | b :: bs => prefixAt needle (b :: bs) || occursIn needle bs

/-- Rust `str::contains(&str)`: contiguous substring test. -/
def strContains (s sub : String) : Bool := occursIn sub.data s.data

/-- `naive_pattern_match` (src/main.rs:237-242): `*` matches everything,
    any other pattern is substring matching after deleting `*`s. -/
def naive_pattern_match (name pat : String) : Bool :=
  if pat = "*" then true
  else strContains name (removeStars pat)

/-- Rust `Path::file_name` for a walk path: its last component. -/
def fileName (p : RPath) : Option String := p.getLast?

/-- The characters after the last `.` of the list, if any. -/
def afterLastDot : List Char → Option (List Char)
  | [] => none
  | c :: cs =>
    match afterLastDot cs with
    | some r => some r
    | none => if c == '.' then some cs else none

/-- Rust extension rule on a file name: the portion after the last `.`,
    where a `.` in leading position does not count (`.gitignore` has no
    extension). -/
def rustExtension (name : String) : Option String :=
  match name.data with
  | [] => none
  | _ :: rest => (afterLastDot rest).map (fun cs => ⟨cs⟩)

/-- Rust `Path::extension` for a walk path. -/
def pathExtension (p : RPath) : Option String := (fileName p).bind rustExtension

/-- The extension clause of `file_matches` (src/main.rs:222-231): with no
    configured set always true, otherwise the extension must exist and
    case-insensitively equal some allowed entry. -/
def extension_ok (p : RPath) (extensions : Option (List String)) : Bool :=
  match extensions with
  | some exts =>
    match pathExtension p with
    | some ext => exts.any (fun allowed => eqIgnoreAsciiCase allowed ext)
    | none => false
  | none => true

/-- `file_matches` (src/main.rs:212-234). -/
def file_matches (p : RPath) (pattern : String) (extensions : Option (List String)) : Bool :=
  match fileName p with
  | none => false
  | some name =>
    if !(pattern == "*") && !(naive_pattern_match name pattern) then false
    else extension_ok p extensions

/-- `is_hidden`, Unix variant (src/main.rs:188-194): the file name begins
    with `.`. -/
def is_hidden (p : RPath) : Bool :=
  match fileName p with
  | some name => startsWithChar name '.'
  | none => false

/-- The `FILE_ATTRIBUTE_HIDDEN` test of the Windows variant;
    `fileAttributes = none` models a failing `path.metadata()`. -/
def winAttrHidden (fileAttributes : Option Nat) : Bool :=
  match fileAttributes with
  | some attrs => attrs.land 2 != 0
  | none => false

/-- `is_hidden`, Windows variant (src/main.rs:196-209): a leading `.`
    always hides; otherwise the hidden attribute bit decides. -/
def is_hidden_windows (p : RPath) (fileAttributes : Option Nat) : Bool :=
  match fileName p with
  | some name =>
    if startsWithChar name '.' then true else winAttrHidden fileAttributes
  | none => winAttrHidden fileAttributes

/-- The compiled gitignore matcher, abstracted to its query
    `matched_path_or_any_parents(path, is_dir).is_ignore()`. -/
abbrev GiPred := RPath → Bool → Bool

/-- `is_gitignored` (src/main.rs:178-185); the second argument is the
    value of the `path.is_dir()` query made at the call site. -/
def is_gitignored (p : RPath) (pathIsDir : Bool) (gitignore : Option GiPred) : Bool :=
  match gitignore with
  | some gi => gi p pathIsDir
  | none => false

/-- The environment `build_gitignore` (src/main.rs:158-175) reads:
    whether `root/.gitignore` is a regular file, whether `builder.add`
    returns an error, and the outcome of `builder.build()` (`some`
    matcher on `Ok`, `none` on `Err`). -/
structure IgnoreWorld where
  isFile : Bool
  addErr : Bool
  buildResult : Option GiPred

/-- `build_gitignore` (src/main.rs:158-175). -/
def build_gitignore (w : IgnoreWorld) : Option GiPred :=
  if !w.isFile then none
  else if w.addErr then none
  else
    match w.buildResult with
    | some gi => some gi
    | none => none

/-- A filesystem entry below the root.  `unreadableDir` is a real
    directory (metadata succeeds, `is_dir` holds) whose `read_dir`
    fails; `badMeta` is an entry whose `entry.metadata()` fails. -/
inductive FNode where
  | file (name : String)
  | dir (name : String) (children : List FNode)
  | unreadableDir (name : String)
  | badMeta (name : String)

def FNode.name : FNode → String
  | .file n => n
  | .dir n _ => n
  | .unreadableDir n => n
  | .badMeta n => n

/-- `metadata.is_dir()`, and also the `path.is_dir()` query used by the
    `is_gitignored` call (a failing stat yields `false`). -/
def FNode.is_dir : FNode → Bool
  | .dir _ _ => true
  | .unreadableDir _ => true
  | _ => false

/-- Whether `entry.metadata()` succeeds for this entry. -/
def FNode.metaOk : FNode → Bool
  | .badMeta _ => false
  | _ => true

/-- The outcome of `fs::read_dir` on this entry's path: the list of
    entries for a readable directory, failure otherwise. -/
def FNode.listing : FNode → Option (List FNode)
  | .dir _ cs => some cs
  | _ => none

/-- One message on the result channel: `Ok(path)` or `Err(e)` (tagged
    with the path of the failing directory or entry). -/
inductive Msg where
  | found (path : RPath)
  | failure (path : RPath)
deriving DecidableEq

/-- The filter configuration handed to `crawl_bfs` (root passed
    separately; `max_depth` is `config.max_depth.unwrap_or(usize::MAX)`). -/
structure SearchConfig where
  pattern : String
  max_depth : Nat
  extensions : Option (List String)
  show_hidden : Bool
  include_gitignored : Bool

/-- `tx.send(..)` against the channel budget: `none` never closes,
    `some k` accepts `k` more messages.  Returns the new budget and
    whether the message was delivered. -/
def send (ch : Option Nat) : Option Nat × Bool :=
  match ch with
  | none => (none, true)
  | some 0 => (some 0, false)
  | some (n + 1) => (some n, true)

/-- A frontier item: `(directory path, its entries, its depth)`. -/
abbrev QItem := RPath × FNode × Nat

mutual
/-- Structural size of a tree, measure for the queue recursion. -/
def FNode.size : FNode → Nat
  | .file _ => 1
  | .unreadableDir _ => 1
  | .badMeta _ => 1
  | .dir _ cs => 1 + FNode.sizeL cs
def FNode.sizeL : List FNode → Nat
  | [] => 0
  | c :: cs => FNode.size c + FNode.sizeL cs
end

/-- Total node size carried by a frontier queue. -/
def queueSize (q : List QItem) : Nat := (q.map (fun it => FNode.size it.2.1)).sum

/-- Outcome of the inner `while let Some(entry) = entries.next_entry()`
    loop of `crawl_bfs` over one directory's listing: the channel budget
    afterwards, the delivered messages, the subdirectories pushed onto
    the queue, and whether a failed `Ok` send aborted the walk. -/
structure EntriesOut where
  ch : Option Nat
  msgs : List Msg
  queued : List QItem
  aborted : Bool

/-- The entry loop of `crawl_bfs` (src/main.rs:119-151): per entry,
    gitignore skip, metadata query (failure → one `Err` message), hidden
    skip, then either enqueue a subdirectory (when `depth < max_depth`)
    or send `Ok(path)` for a filter-passing file (`?` aborts on a closed
    channel). -/
def processEntries (cfg : SearchConfig) (gitignore : Option GiPred)
    (dirPath : RPath) (depth : Nat) :
    List FNode → Option Nat → EntriesOut
  | [], ch => ⟨ch, [], [], false⟩
  | c :: rest, ch =>
    let path := dirPath ++ [c.name]
    if !cfg.include_gitignored && is_gitignored path c.is_dir gitignore then
      processEntries cfg gitignore dirPath depth rest ch
    else if !c.metaOk then
      let s := send ch
      let r := processEntries cfg gitignore dirPath depth rest s.1
      ⟨r.ch, (if s.2 then [Msg.failure path] else []) ++ r.msgs, r.queued, r.aborted⟩
    else if !cfg.show_hidden && is_hidden path then
      processEntries cfg gitignore dirPath depth rest ch
    else if c.is_dir then
      if depth < cfg.max_depth then
        let r := processEntries cfg gitignore dirPath depth rest ch
        ⟨r.ch, r.msgs, (path, c, depth + 1) :: r.queued, r.aborted⟩
      else
        processEntries cfg gitignore dirPath depth rest ch
    else
      if file_matches path cfg.pattern cfg.extensions then
        let s := send ch
        if s.2 then
          let r := processEntries cfg gitignore dirPath depth rest s.1
          ⟨r.ch, Msg.found path :: r.msgs, r.queued, r.aborted⟩
        else ⟨s.1, [], [], true⟩
      else
        processEntries cfg gitignore dirPath depth rest ch

/-- What the walk produces: the messages the consumer can receive, the
    directories on which `fs::read_dir` was invoked, how often the
    depth-discard branch fired, and whether a failed `Ok` send made
    `crawl_bfs` return `Err`. -/
structure CrawlResult where
  delivered : List Msg
  listed : List RPath
  discarded : Nat
  aborted : Bool
deriving DecidableEq

@[simp] theorem EntriesOut.ch_mk (a : Option Nat) (b : List Msg) (c : List QItem) (d : Bool) :
    (EntriesOut.mk a b c d).ch = a := rfl
@[simp] theorem EntriesOut.msgs_mk (a : Option Nat) (b : List Msg) (c : List QItem) (d : Bool) :
    (EntriesOut.mk a b c d).msgs = b := rfl
@[simp] theorem EntriesOut.queued_mk (a : Option Nat) (b : List Msg) (c : List QItem) (d : Bool) :
    (EntriesOut.mk a b c d).queued = c := rfl
@[simp] theorem EntriesOut.abortFlag_mk (a : Option Nat) (b : List Msg) (c : List QItem) (d : Bool) :
    (EntriesOut.mk a b c d).aborted = d := rfl

@[simp] theorem CrawlResult.delivered_mk (a : List Msg) (b : List RPath) (c : Nat) (d : Bool) :
    (CrawlResult.mk a b c d).delivered = a := rfl
@[simp] theorem CrawlResult.listed_mk (a : List Msg) (b : List RPath) (c : Nat) (d : Bool) :
    (CrawlResult.mk a b c d).listed = b := rfl
@[simp] theorem CrawlResult.discarded_mk (a : List Msg) (b : List RPath) (c : Nat) (d : Bool) :
    (CrawlResult.mk a b c d).discarded = c := rfl
@[simp] theorem CrawlResult.aborted_mk (a : List Msg) (b : List RPath) (c : Nat) (d : Bool) :
    (CrawlResult.mk a b c d).aborted = d := rfl

theorem queueSize_nil : queueSize [] = 0 := rfl

theorem queueSize_cons (a : QItem) (q : List QItem) :
    queueSize (a :: q) = FNode.size a.2.1 + queueSize q := by
  simp [queueSize]

theorem queueSize_cons3 (p : RPath) (n : FNode) (d : Nat) (q : List QItem) :
    queueSize ((p, n, d) :: q) = FNode.size n + queueSize q := by
  simp [queueSize]

theorem queueSize_append (q r : List QItem) :
    queueSize (q ++ r) = queueSize q + queueSize r := by
  simp [queueSize]

theorem FNode.size_pos (n : FNode) : 0 < n.size := by
  cases n <;> simp [FNode.size]

theorem processEntries_queued_size (cfg : SearchConfig) (gitignore : Option GiPred)
    (dirPath : RPath) (depth : Nat) (cs : List FNode) (ch : Option Nat) :
    queueSize (processEntries cfg gitignore dirPath depth cs ch).queued ≤ FNode.sizeL cs := by
  induction cs generalizing ch with
  | nil => simp [processEntries, queueSize]
  | cons c rest ih =>
    have hstep : ∀ ch2 : Option Nat,
        queueSize (processEntries cfg gitignore dirPath depth rest ch2).queued
          ≤ FNode.sizeL (c :: rest) := by
      intro ch2
      refine le_trans (ih ch2) ?_
      simp only [FNode.sizeL]
      have := FNode.size_pos c
      omega
    simp only [processEntries]
    split
    · exact hstep ch
    · split
      · -- badMeta: queued comes from the rest of the listing
        simpa using hstep (send ch).1
      · split
        · exact hstep ch
        · split
          · split
            · -- a subdirectory is pushed
              simp only [EntriesOut.queued_mk, queueSize_cons3, FNode.sizeL]
              have := ih ch
              omega
            · exact hstep ch
          · split
            · split
              · simpa using hstep (send ch).1
              · -- aborted: nothing queued
                simp [queueSize]
            · exact hstep ch

theorem crawl_dec1 (it : QItem) (rest : List QItem) :
    queueSize rest < queueSize (it :: rest) := by
  rw [queueSize_cons]
  have := FNode.size_pos it.2.1
  omega

theorem FNode.sizeL_lt_of_listing (node : FNode) (cs : List FNode)
    (h : node.listing = some cs) : FNode.sizeL cs < FNode.size node := by
  cases node <;> simp_all [FNode.listing, FNode.size]

theorem crawl_dec2 (cfg : SearchConfig) (gi : Option GiPred) (dp : RPath) (d : Nat)
    (node : FNode) (cs : List FNode) (ch : Option Nat) (rest : List QItem)
    (p2 : RPath) (d2 : Nat) (h : node.listing = some cs) :
    queueSize (rest ++ (processEntries cfg gi dp d cs ch).queued)
      < queueSize ((p2, node, d2) :: rest) := by
  rw [queueSize_append, queueSize_cons3]
  have h1 := processEntries_queued_size cfg gi dp d cs ch
  have h2 := FNode.sizeL_lt_of_listing node cs h
  omega

/-- The main loop of `crawl_bfs` (src/main.rs:102-152): pop the frontier,
    discard beyond `max_depth`, list the directory (failure → one `Err`
    message and continue), process the entries, repeat. -/
def crawlLoop (cfg : SearchConfig) (gitignore : Option GiPred) :
    List QItem → Option Nat → CrawlResult
  | [], _ => ⟨[], [], 0, false⟩
  | (path, node, depth) :: rest, ch =>
    if depth > cfg.max_depth then
      let r := crawlLoop cfg gitignore rest ch
      ⟨r.delivered, r.listed, r.discarded + 1, r.aborted⟩
    else
      match hl : node.listing with
      | some children =>
        let e := processEntries cfg gitignore path depth children ch
        if e.aborted then ⟨e.msgs, [path], 0, true⟩
        else
          let r := crawlLoop cfg gitignore (rest ++ e.queued) e.ch
          ⟨e.msgs ++ r.delivered, path :: r.listed, r.discarded, r.aborted⟩
      | none =>
        let s := send ch
        let r := crawlLoop cfg gitignore rest s.1
        ⟨(if s.2 then [Msg.failure path] else []) ++ r.delivered,
          path :: r.listed, r.discarded, r.aborted⟩
termination_by q _ => queueSize q
decreasing_by
  · apply crawl_dec1
  · apply crawl_dec2 <;> assumption
  · apply crawl_dec1

/-- `crawl_bfs` (src/main.rs:91-155): run the loop from `(root, 0)`. -/
def crawl_bfs (root : FNode) (cfg : SearchConfig) (gitignore : Option GiPred)
    (ch : Option Nat) : CrawlResult :=
  crawlLoop cfg gitignore [([], root, 0)] ch

/-! ### Basic channel lemmas -/

theorem send_none : send none = (none, true) := rfl

/-- A never-closing consumer: the entry loop never aborts and leaves the
    budget untouched. -/
theorem processEntries_none (cfg : SearchConfig) (gi : Option GiPred)
    (dp : RPath) (d : Nat) (cs : List FNode) :
    (processEntries cfg gi dp d cs none).ch = none ∧
    (processEntries cfg gi dp d cs none).aborted = false := by
  induction cs with
  | nil => simp [processEntries]
  | cons c rest ih =>
    simp only [processEntries, send]
    repeat' split
    all_goals simp_all

/-- Everything the entry loop guarantees about a message it emitted while
    listing directory `dp` with entries `cs`: a `found` message is a
    filter-passing file child that survived the gitignore and hidden
    checks the code performed; a `failure` message is a child whose
    metadata query failed. -/
def MsgFact (cfg : SearchConfig) (gi : Option GiPred) (dp : RPath)
    (cs : List FNode) (m : Msg) : Prop :=
  (∃ n, m = Msg.found (dp ++ [n]) ∧ FNode.file n ∈ cs ∧
    (cfg.include_gitignored = false → is_gitignored (dp ++ [n]) false gi = false) ∧
    (cfg.show_hidden = false → is_hidden (dp ++ [n]) = false) ∧
    file_matches (dp ++ [n]) cfg.pattern cfg.extensions = true) ∨
  (∃ n, m = Msg.failure (dp ++ [n]) ∧ FNode.badMeta n ∈ cs)

/-- Everything the entry loop guarantees about a frontier item it queued
    while listing directory `dp` at depth `d`. -/
def QFact (cfg : SearchConfig) (gi : Option GiPred) (dp : RPath) (d : Nat)
    (cs : List FNode) (it : QItem) : Prop :=
  ∃ c, c ∈ cs ∧ it = (dp ++ [c.name], c, d + 1) ∧ c.is_dir = true ∧
    d < cfg.max_depth ∧
    (cfg.include_gitignored = false → is_gitignored (dp ++ [c.name]) true gi = false) ∧
    (cfg.show_hidden = false → is_hidden (dp ++ [c.name]) = false)

theorem MsgFact.widenMsg {cfg : SearchConfig} {gi : Option GiPred} {dp : RPath}
    {rest : List FNode} {m : Msg} (c : FNode) (h : MsgFact cfg gi dp rest m) :
    MsgFact cfg gi dp (c :: rest) m := by
  rcases h with ⟨n, h1, h2, h3⟩ | ⟨n, h1, h2⟩
  · exact Or.inl ⟨n, h1, List.mem_cons_of_mem _ h2, h3⟩
  · exact Or.inr ⟨n, h1, List.mem_cons_of_mem _ h2⟩

theorem QFact.widenItem {cfg : SearchConfig} {gi : Option GiPred} {dp : RPath} {d : Nat}
    {rest : List FNode} {it : QItem} (c : FNode) (h : QFact cfg gi dp d rest it) :
    QFact cfg gi dp d (c :: rest) it := by
  obtain ⟨c2, hc2, hrest⟩ := h
  exact ⟨c2, List.mem_cons_of_mem _ hc2, hrest⟩

theorem bool_guard_clear {a b : Bool} (h : (!a && b) = false) : a = false → b = false := by
  intro ha; subst ha; simpa using h

theorem FNode.eq_badMeta (c : FNode) (h : c.metaOk = false) :
    c = FNode.badMeta c.name := by
  cases c <;> simp_all [FNode.metaOk, FNode.name]

theorem FNode.eq_file (c : FNode) (h1 : c.metaOk = true) (h2 : c.is_dir = false) :
    c = FNode.file c.name := by
  cases c <;> simp_all [FNode.metaOk, FNode.is_dir, FNode.name]

/-- Soundness of the entry loop: every emitted message and every queued
    item satisfies its fact. -/
theorem processEntries_sound (cfg : SearchConfig) (gi : Option GiPred)
    (dp : RPath) (d : Nat) (cs : List FNode) (ch : Option Nat) :
    (∀ m ∈ (processEntries cfg gi dp d cs ch).msgs, MsgFact cfg gi dp cs m) ∧
    (∀ it ∈ (processEntries cfg gi dp d cs ch).queued, QFact cfg gi dp d cs it) := by
  induction cs generalizing ch with
  | nil => simp [processEntries]
  | cons c rest ih =>
    by_cases hg : (!cfg.include_gitignored && is_gitignored (dp ++ [c.name]) c.is_dir gi) = true
    · simp only [processEntries, hg, if_true]
      exact ⟨fun m hm => ((ih ch).1 m hm).widenMsg c, fun it hit => ((ih ch).2 it hit).widenItem c⟩
    · rw [Bool.not_eq_true] at hg
      by_cases hmeta : c.metaOk = false
      · simp only [processEntries, hg, hmeta, Bool.false_eq_true, if_false, Bool.not_false,
          if_true, EntriesOut.msgs_mk, EntriesOut.queued_mk, EntriesOut.abortFlag_mk]
        constructor
        · intro m hm
          rcases List.mem_append.mp hm with hm | hm
          · have hfail : m = Msg.failure (dp ++ [c.name]) := by
              rcases h : (send ch).2 with _ | _ <;> rw [h] at hm <;> simp at hm <;> simp [hm]
            right
            refine ⟨c.name, hfail, ?_⟩
            rw [show FNode.badMeta c.name = c from (FNode.eq_badMeta c hmeta).symm]
            exact List.mem_cons_self _ _
          · exact ((ih (send ch).1).1 m hm).widenMsg c
        · exact fun it hit => ((ih (send ch).1).2 it hit).widenItem c
      · rw [Bool.not_eq_false] at hmeta
        by_cases hh : (!cfg.show_hidden && is_hidden (dp ++ [c.name])) = true
        · simp only [processEntries, hg, hmeta, Bool.false_eq_true, if_false, Bool.not_true,
            hh, if_true]
          exact ⟨fun m hm => ((ih ch).1 m hm).widenMsg c, fun it hit => ((ih ch).2 it hit).widenItem c⟩
        · rw [Bool.not_eq_true] at hh
          by_cases hdir : c.is_dir = true
          · rw [hdir] at hg
            by_cases hd : d < cfg.max_depth
            · simp only [processEntries, hg, hmeta, hh, hdir, hd, Bool.false_eq_true,
                if_false, Bool.not_true, if_true, EntriesOut.msgs_mk, EntriesOut.queued_mk]
              constructor
              · exact fun m hm => ((ih ch).1 m hm).widenMsg c
              · intro it hit
                rcases List.mem_cons.mp hit with hit | hit
                · exact ⟨c, List.mem_cons_self _ _, hit, hdir, hd,
                    fun hinc => bool_guard_clear hg hinc,
                    fun hsh => bool_guard_clear hh hsh⟩
                · exact ((ih ch).2 it hit).widenItem c
            · simp only [processEntries, hg, hmeta, hh, hdir, hd, Bool.false_eq_true,
                if_false, Bool.not_true, if_true]
              exact ⟨fun m hm => ((ih ch).1 m hm).widenMsg c,
                fun it hit => ((ih ch).2 it hit).widenItem c⟩
          · rw [Bool.not_eq_true] at hdir
            rw [hdir] at hg
            by_cases hfm : file_matches (dp ++ [c.name]) cfg.pattern cfg.extensions = true
            · by_cases hs : (send ch).2 = true
              · simp only [processEntries, hg, hmeta, hh, hdir, hfm, hs, Bool.false_eq_true,
                  if_false, Bool.not_true, if_true, EntriesOut.msgs_mk, EntriesOut.queued_mk]
                constructor
                · intro m hm
                  rcases List.mem_cons.mp hm with hm | hm
                  · subst hm
                    left
                    refine ⟨c.name, rfl, ?_,
                      fun hinc => bool_guard_clear hg hinc,
                      fun hsh => bool_guard_clear hh hsh, hfm⟩
                    rw [show FNode.file c.name = c from (FNode.eq_file c hmeta hdir).symm]
                    exact List.mem_cons_self _ _
                  · exact ((ih (send ch).1).1 m hm).widenMsg c
                · exact fun it hit => ((ih (send ch).1).2 it hit).widenItem c
              · simp only [processEntries, hg, hmeta, hh, hdir, hfm, Bool.false_eq_true,
                  if_false, Bool.not_true, if_true, hs, EntriesOut.msgs_mk,
                  EntriesOut.queued_mk]
                simp
            · simp only [processEntries, hg, hmeta, hh, hdir, hfm, Bool.false_eq_true,
                if_false, Bool.not_true, if_true]
              exact ⟨fun m hm => ((ih ch).1 m hm).widenMsg c,
                fun it hit => ((ih ch).2 it hit).widenItem c⟩

/-- With a never-closing consumer, processing one more leading entry can
    only add to the messages and the queue. -/
theorem processEntries_cons_none_mono (cfg : SearchConfig) (gi : Option GiPred)
    (dp : RPath) (d : Nat) (c : FNode) (rest : List FNode) :
    (∀ m ∈ (processEntries cfg gi dp d rest none).msgs,
      m ∈ (processEntries cfg gi dp d (c :: rest) none).msgs) ∧
    (∀ it ∈ (processEntries cfg gi dp d rest none).queued,
      it ∈ (processEntries cfg gi dp d (c :: rest) none).queued) := by
  simp only [processEntries, send_none]
  repeat' split
  all_goals constructor <;> intro x hx <;> simp_all

/-- Completeness for files: a file child that survives the gitignore and
    hidden guards and passes the filters is reported (never-closing
    consumer). -/
theorem processEntries_found_mem (cfg : SearchConfig) (gi : Option GiPred)
    (dp : RPath) (d : Nat) (cs : List FNode) (fname : String)
    (hmem : FNode.file fname ∈ cs)
    (hg : (!cfg.include_gitignored && is_gitignored (dp ++ [fname]) false gi) = false)
    (hh : (!cfg.show_hidden && is_hidden (dp ++ [fname])) = false)
    (hfm : file_matches (dp ++ [fname]) cfg.pattern cfg.extensions = true) :
    Msg.found (dp ++ [fname]) ∈ (processEntries cfg gi dp d cs none).msgs := by
  induction cs with
  | nil => cases hmem
  | cons c rest ih =>
    rcases List.mem_cons.mp hmem with hc | hc
    · subst hc
      simp [processEntries, FNode.name, FNode.is_dir, FNode.metaOk, hg, hh, hfm, send]
    · exact (processEntries_cons_none_mono cfg gi dp d c rest).1 _ (ih hc)

/-- Completeness for subdirectories: a directory child that survives the
    guards is pushed onto the frontier at `depth + 1` while
    `depth < max_depth` (never-closing consumer). -/
theorem processEntries_queued_mem (cfg : SearchConfig) (gi : Option GiPred)
    (dp : RPath) (d : Nat) (cs : List FNode) (c : FNode)
    (hmem : c ∈ cs) (hdir : c.is_dir = true) (hmeta : c.metaOk = true)
    (hg : (!cfg.include_gitignored && is_gitignored (dp ++ [c.name]) true gi) = false)
    (hh : (!cfg.show_hidden && is_hidden (dp ++ [c.name])) = false)
    (hd : d < cfg.max_depth) :
    (dp ++ [c.name], c, d + 1) ∈ (processEntries cfg gi dp d cs none).queued := by
  induction cs with
  | nil => cases hmem
  | cons c0 rest ih =>
    rcases List.mem_cons.mp hmem with hc | hc
    · subst hc
      simp [processEntries, hdir, hmeta, hg, hh, hd]
    · exact (processEntries_cons_none_mono cfg gi dp d c0 rest).2 _ (ih hc)

/-- The entry loop consults the gitignore matcher only through
    `is_gitignored`. -/
theorem processEntries_congr_gi (cfg : SearchConfig) {g1 g2 : Option GiPred}
    (hgi : ∀ p b, is_gitignored p b g1 = is_gitignored p b g2)
    (dp : RPath) (d : Nat) (cs : List FNode) (ch : Option Nat) :
    processEntries cfg g1 dp d cs ch = processEntries cfg g2 dp d cs ch := by
  induction cs generalizing ch with
  | nil => simp [processEntries]
  | cons c rest ih =>
    simp only [processEntries, hgi]
    repeat' split
    all_goals simp [ih]

/-- With `include_gitignored` set, the `&&` short-circuit means the
    matcher is never consulted: any two matchers give the same walk. -/
theorem processEntries_include_any (cfg : SearchConfig)
    (hinc : cfg.include_gitignored = true) (g1 g2 : Option GiPred)
    (dp : RPath) (d : Nat) (cs : List FNode) (ch : Option Nat) :
    processEntries cfg g1 dp d cs ch = processEntries cfg g2 dp d cs ch := by
  induction cs generalizing ch with
  | nil => simp [processEntries]
  | cons c rest ih =>
    simp only [processEntries, hinc, Bool.not_true, Bool.false_and, Bool.false_eq_true,
      if_false]
    repeat' split
    all_goals simp [ih]

/-! ### Unfolding lemmas for the main loop -/

theorem crawlLoop_nil (cfg : SearchConfig) (gi : Option GiPred) (ch : Option Nat) :
    crawlLoop cfg gi [] ch = ⟨[], [], 0, false⟩ := by
  simp [crawlLoop]

theorem crawlLoop_deep (cfg : SearchConfig) (gi : Option GiPred) (p : RPath) (node : FNode)
    (d : Nat) (rest : List QItem) (ch : Option Nat) (hd : d > cfg.max_depth) :
    crawlLoop cfg gi ((p, node, d) :: rest) ch =
      ⟨(crawlLoop cfg gi rest ch).delivered, (crawlLoop cfg gi rest ch).listed,
        (crawlLoop cfg gi rest ch).discarded + 1, (crawlLoop cfg gi rest ch).aborted⟩ := by
  simp only [crawlLoop, hd, if_true]

theorem crawlLoop_dir (cfg : SearchConfig) (gi : Option GiPred) (p : RPath) (node : FNode)
    (d : Nat) (rest : List QItem) (ch : Option Nat) (children : List FNode)
    (hd : ¬ d > cfg.max_depth) (hl : node.listing = some children) :
    crawlLoop cfg gi ((p, node, d) :: rest) ch =
      (if (processEntries cfg gi p d children ch).aborted then
        ⟨(processEntries cfg gi p d children ch).msgs, [p], 0, true⟩
      else
        ⟨(processEntries cfg gi p d children ch).msgs ++
            (crawlLoop cfg gi (rest ++ (processEntries cfg gi p d children ch).queued)
              (processEntries cfg gi p d children ch).ch).delivered,
          p :: (crawlLoop cfg gi (rest ++ (processEntries cfg gi p d children ch).queued)
              (processEntries cfg gi p d children ch).ch).listed,
          (crawlLoop cfg gi (rest ++ (processEntries cfg gi p d children ch).queued)
              (processEntries cfg gi p d children ch).ch).discarded,
          (crawlLoop cfg gi (rest ++ (processEntries cfg gi p d children ch).queued)
              (processEntries cfg gi p d children ch).ch).aborted⟩) := by
  simp only [crawlLoop, hd, if_false]
  split
  · rename_i cs2 hl2
    rw [hl] at hl2
    cases hl2
    rfl
  · rename_i hl2
    rw [hl] at hl2
    cases hl2

theorem crawlLoop_fail (cfg : SearchConfig) (gi : Option GiPred) (p : RPath) (node : FNode)
    (d : Nat) (rest : List QItem) (ch : Option Nat)
    (hd : ¬ d > cfg.max_depth) (hl : node.listing = none) :
    crawlLoop cfg gi ((p, node, d) :: rest) ch =
      ⟨(if (send ch).2 then [Msg.failure p] else []) ++
          (crawlLoop cfg gi rest (send ch).1).delivered,
        p :: (crawlLoop cfg gi rest (send ch).1).listed,
        (crawlLoop cfg gi rest (send ch).1).discarded,
        (crawlLoop cfg gi rest (send ch).1).aborted⟩ := by
  simp only [crawlLoop, hd, if_false]
  split
  · rename_i cs2 hl2
    rw [hl] at hl2
    cases hl2
  · rfl

/-- Strong induction on the total tree size carried by the frontier. -/
theorem queue_strong_ind (motive : List QItem → Option Nat → Prop)
    (step : ∀ q ch, (∀ q2 ch2, queueSize q2 < queueSize q → motive q2 ch2) → motive q ch)
    (q : List QItem) (ch : Option Nat) : motive q ch := by
  have H : ∀ n q ch, queueSize q ≤ n → motive q ch := by
    intro n
    induction n with
    | zero =>
      intro q ch hq
      exact step q ch (fun q2 ch2 h2 => absurd (lt_of_lt_of_le h2 hq) (Nat.not_lt_zero _))
    | succ n ihn =>
      intro q ch hq
      exact step q ch (fun q2 ch2 h2 => ihn q2 ch2 (by omega))
  exact H (queueSize q) q ch le_rfl

/-- The frontier invariant: every queued depth is within `max_depth`, so
    the discard branch never fires. -/
theorem crawlLoop_discarded (cfg : SearchConfig) (gi : Option GiPred)
    (q : List QItem) (ch : Option Nat)
    (hinv : ∀ it ∈ q, it.2.2 ≤ cfg.max_depth) :
    (crawlLoop cfg gi q ch).discarded = 0 := by
  revert hinv
  induction q, ch using queue_strong_ind with
  | step q ch ih =>
  intro hinv
  rcases q with _ | ⟨⟨p, node, d⟩, rest⟩
  · simp [crawlLoop_nil]
  · have hd : ¬ d > cfg.max_depth := by
      have := hinv (p, node, d) (List.mem_cons_self _ _)
      simpa using this
    cases hl : node.listing with
    | some children =>
      rw [crawlLoop_dir cfg gi p node d rest ch children hd hl]
      split
      · simp
      · simp only [CrawlResult.discarded_mk]
        refine ih _ _ (crawl_dec2 cfg gi p d node children ch rest p d hl) ?_
        intro it hit
        rcases List.mem_append.mp hit with hit | hit
        · exact hinv it (List.mem_cons_of_mem _ hit)
        · obtain ⟨c, _, hit_eq, _, hlt, _⟩ :=
            (processEntries_sound cfg gi p d children ch).2 it hit
          rw [hit_eq]
          simpa using hlt
    | none =>
      rw [crawlLoop_fail cfg gi p node d rest ch hd hl]
      simp only [CrawlResult.discarded_mk]
      exact ih _ _ (crawl_dec1 _ _) (fun it hit => hinv it (List.mem_cons_of_mem _ hit))

theorem is_hidden_append (q : RPath) (n : String) :
    is_hidden (q ++ [n]) = startsWithChar n '.' := by
  simp [is_hidden, fileName]

theorem split_of_append_last {α : Type} (a : List α) (b : α) (c : List α)
    (q : List α) (n : α) (h : a ++ b :: c = q ++ [n]) :
    (c = [] ∧ a = q ∧ b = n) ∨ (∃ c2, c = c2 ++ [n] ∧ q = a ++ b :: c2) := by
  rcases List.eq_nil_or_concat c with hc | ⟨c2, x, hc⟩
  · subst hc
    left
    have h2 : a ++ [b] = q ++ [n] := h
    have h3 := List.append_inj' h2 rfl
    refine ⟨rfl, h3.1, ?_⟩
    have := h3.2
    simpa using this
  · subst hc
    right
    have h2 : (a ++ b :: c2) ++ [x] = q ++ [n] := by
      simpa using h
    have h3 := List.append_inj' h2 rfl
    have hx : x = n := by simpa using h3.2
    subst hx
    exact ⟨c2, List.concat_eq_append _ _, h3.1.symm⟩

/-- Invariant of every directory path the walk can have on its frontier:
    when hidden entries are excluded no component is hidden, and when the
    ignore policy is active no consulted ancestor was ignored. -/
def PathOk (cfg : SearchConfig) (gi : Option GiPred) (p : RPath) : Prop :=
  (cfg.show_hidden = false → ∀ n ∈ p, startsWithChar n '.' = false) ∧
  (cfg.include_gitignored = false →
    ∀ q n r, p = q ++ n :: r → is_gitignored (q ++ [n]) true gi = false)

theorem PathOk.nil (cfg : SearchConfig) (gi : Option GiPred) : PathOk cfg gi [] := by
  constructor
  · intro _ n hn
    cases hn
  · intro _ q n r h
    cases q <;> cases h

/-- Extending a frontier path by a non-hidden, non-ignored directory
    component preserves the invariant. -/
theorem PathOk.snoc {cfg : SearchConfig} {gi : Option GiPred} {p : RPath} {n : String}
    (hp : PathOk cfg gi p)
    (hh : cfg.show_hidden = false → startsWithChar n '.' = false)
    (hg : cfg.include_gitignored = false → is_gitignored (p ++ [n]) true gi = false) :
    PathOk cfg gi (p ++ [n]) := by
  constructor
  · intro hsh m hm
    rcases List.mem_append.mp hm with hm | hm
    · exact hp.1 hsh m hm
    · rw [List.mem_singleton.mp hm]
      exact hh hsh
  · intro hinc a b c habc
    rcases split_of_append_last a b c p n habc.symm with ⟨_, ha, hb⟩ | ⟨c2, _, hq⟩
    · subst ha; subst hb
      exact hg hinc
    · exact hp.2 hinc a b c2 hq

/-- Soundness of the whole walk: any `found` message names a file one
    component below an in-bounds frontier directory, and it passed every
    filter the configuration demands. -/
theorem crawlLoop_found_sound (cfg : SearchConfig) (gi : Option GiPred)
    (q : List QItem) (ch : Option Nat)
    (hinv : ∀ it ∈ q, it.1.length = it.2.2 ∧ it.2.2 ≤ cfg.max_depth ∧ PathOk cfg gi it.1)
    (p : RPath) (hp : Msg.found p ∈ (crawlLoop cfg gi q ch).delivered) :
    ∃ q0 n, p = q0 ++ [n] ∧ q0.length ≤ cfg.max_depth ∧ PathOk cfg gi q0 ∧
      (cfg.show_hidden = false → startsWithChar n '.' = false) ∧
      (cfg.include_gitignored = false → is_gitignored p false gi = false) ∧
      file_matches p cfg.pattern cfg.extensions = true := by
  revert hinv p hp
  induction q, ch using queue_strong_ind with
  | step q ch ih =>
  intro hinv p hp
  rcases q with _ | ⟨⟨dp, node, d⟩, rest⟩
  · rw [crawlLoop_nil] at hp
    simp at hp
  · obtain ⟨hlen, hdep, hpok⟩ := hinv (dp, node, d) (List.mem_cons_self _ _)
    simp only at hlen hdep hpok
    have hd : ¬ d > cfg.max_depth := by simpa using hdep
    cases hl : node.listing with
    | some children =>
      have hmsg : ∀ m ∈ (processEntries cfg gi dp d children ch).msgs,
          Msg.found p = m →
          ∃ q0 n, p = q0 ++ [n] ∧ q0.length ≤ cfg.max_depth ∧ PathOk cfg gi q0 ∧
            (cfg.show_hidden = false → startsWithChar n '.' = false) ∧
            (cfg.include_gitignored = false → is_gitignored p false gi = false) ∧
            file_matches p cfg.pattern cfg.extensions = true := by
        intro m hm hm2
        rcases (processEntries_sound cfg gi dp d children ch).1 m hm with
          ⟨n, h1, _, h3, h4, h5⟩ | ⟨n, h1, _⟩
        · rw [← hm2] at h1
          cases h1
          exact ⟨dp, n, rfl, by omega,
            hpok, fun hsh => by simpa [is_hidden_append] using h4 hsh, h3, h5⟩
        · rw [← hm2] at h1
          cases h1
      have hQ : ∀ it ∈ rest ++ (processEntries cfg gi dp d children ch).queued,
          it.1.length = it.2.2 ∧ it.2.2 ≤ cfg.max_depth ∧ PathOk cfg gi it.1 := by
        intro it hit
        rcases List.mem_append.mp hit with hit | hit
        · exact hinv it (List.mem_cons_of_mem _ hit)
        · obtain ⟨c, _, hit_eq, hcdir, hlt, hgin, hhid⟩ :=
            (processEntries_sound cfg gi dp d children ch).2 it hit
          subst hit_eq
          refine ⟨by simp [hlen], by simp; omega, ?_⟩
          exact hpok.snoc
            (fun hsh => by simpa [is_hidden_append] using hhid hsh)
            hgin
      rw [crawlLoop_dir cfg gi dp node d rest ch children hd hl] at hp
      split at hp
      · simp only [CrawlResult.delivered_mk] at hp
        exact hmsg _ hp rfl
      · simp only [CrawlResult.delivered_mk] at hp
        rcases List.mem_append.mp hp with hp | hp
        · exact hmsg _ hp rfl
        · exact ih _ _ (crawl_dec2 cfg gi dp d node children ch rest dp d hl) hQ p hp
    | none =>
      rw [crawlLoop_fail cfg gi dp node d rest ch hd hl] at hp
      simp only [CrawlResult.delivered_mk] at hp
      rcases List.mem_append.mp hp with hp | hp
      · rcases hb : (send ch).2 with _ | _ <;> rw [hb] at hp <;> simp at hp
      · exact ih _ _ (crawl_dec1 _ _)
          (fun it hit => hinv it (List.mem_cons_of_mem _ hit)) p hp

/-- A single nested chain of directories ending in one file:
    `mkChain [d1, d2] f` is the tree `d1/d2/f`. -/
def mkChain (dirs : List String) (fname : String) : FNode :=
  match dirs with
  | [] => FNode.file fname
  | dn :: ds => FNode.dir dn [mkChain ds fname]

/-- The conditions under which the walk, starting from directory `p` at
    depth `d`, reaches and reports the file of the chain `dirs / fname`:
    at every level the entry survives the gitignore and hidden guards,
    every descent happens strictly below `max_depth`, and the file passes
    the name and extension filters. -/
def chainOk (cfg : SearchConfig) (gi : Option GiPred) :
    RPath → Nat → List String → String → Bool
  | p, _, [], fname =>
    !(!cfg.include_gitignored && is_gitignored (p ++ [fname]) false gi) &&
    (!(!cfg.show_hidden && is_hidden (p ++ [fname])) &&
      file_matches (p ++ [fname]) cfg.pattern cfg.extensions)
  | p, d, dn :: ds, fname =>
    !(!cfg.include_gitignored && is_gitignored (p ++ [dn]) true gi) &&
    (!(!cfg.show_hidden && is_hidden (p ++ [dn])) &&
      (decide (d < cfg.max_depth) && chainOk cfg gi (p ++ [dn]) (d + 1) ds fname))

theorem crawlLoop_chain_found_aux (cfg : SearchConfig) (gi : Option GiPred) :
    ∀ (q : List QItem) (ch : Option Nat),
      (∀ it ∈ q, it.2.2 ≤ cfg.max_depth) →
      ∀ (p : RPath) (nm : String) (cs : List FNode) (d : Nat)
        (dirs : List String) (fname : String),
        (p, FNode.dir nm cs, d) ∈ q → mkChain dirs fname ∈ cs →
        chainOk cfg gi p d dirs fname = true →
        Msg.found (p ++ dirs ++ [fname]) ∈ (crawlLoop cfg gi q none).delivered := by
  intro q ch
  induction q, ch using queue_strong_ind with
  | step q ch ih =>
  intro hinv p nm cs d dirs fname hq hmem hok
  rcases q with _ | ⟨⟨dp, node0, d0⟩, rest⟩
  · cases hq
  · have hd0 : ¬ d0 > cfg.max_depth := by
      have := hinv (dp, node0, d0) (List.mem_cons_self _ _)
      simpa using this
    cases hl : node0.listing with
    | some children =>
      have hnone := processEntries_none cfg gi dp d0 children
      rw [crawlLoop_dir cfg gi dp node0 d0 rest none children hd0 hl]
      rw [if_neg (by simp [hnone.2]), hnone.1]
      simp only [CrawlResult.delivered_mk]
      have hQ : ∀ it ∈ rest ++ (processEntries cfg gi dp d0 children none).queued,
          it.2.2 ≤ cfg.max_depth := by
        intro it hit
        rcases List.mem_append.mp hit with hit | hit
        · exact hinv it (List.mem_cons_of_mem _ hit)
        · obtain ⟨c, _, hit_eq, _, hlt, _⟩ :=
            (processEntries_sound cfg gi dp d0 children none).2 it hit
          rw [hit_eq]
          simpa using hlt
      have hsz := crawl_dec2 cfg gi dp d0 node0 children none rest dp d0 hl
      rcases List.mem_cons.mp hq with hhd | htl
      · -- the chain's directory is the popped frontier item
        obtain ⟨h1, h2, h3⟩ : p = dp ∧ FNode.dir nm cs = node0 ∧ d = d0 := by
          simpa [Prod.ext_iff] using hhd
        subst h1
        subst h2
        subst h3
        have hcs : cs = children := by
          simp only [FNode.listing] at hl
          exact Option.some_inj.mp hl
        subst hcs
        cases dirs with
        | nil =>
          simp only [chainOk, Bool.and_eq_true, Bool.not_eq_true'] at hok
          apply List.mem_append_left
          simp only [List.append_nil]
          simp only [mkChain] at hmem
          exact processEntries_found_mem cfg gi p d cs fname hmem hok.1 hok.2.1 hok.2.2
        | cons dn ds =>
          simp only [chainOk, Bool.and_eq_true, Bool.not_eq_true', decide_eq_true_eq] at hok
          obtain ⟨hg, hh, hdlt, hrec⟩ := hok
          simp only [mkChain] at hmem
          have hq2 : (p ++ [dn], FNode.dir dn [mkChain ds fname], d + 1) ∈
              (processEntries cfg gi p d cs none).queued :=
            processEntries_queued_mem cfg gi p d cs
              (FNode.dir dn [mkChain ds fname]) hmem rfl rfl hg hh hdlt
          apply List.mem_append_right
          have := ih _ none hsz hQ (p ++ [dn]) dn [mkChain ds fname] (d + 1) ds fname
            (List.mem_append_right _ hq2) (List.mem_singleton.mpr rfl) hrec
          simpa using this
      · -- the chain's directory is elsewhere on the frontier
        apply List.mem_append_right
        exact ih _ none hsz hQ p nm cs d dirs fname
          (List.mem_append_left _ htl) hmem hok
    | none =>
      rcases List.mem_cons.mp hq with hhd | htl
      · obtain ⟨h1, h2, h3⟩ : p = dp ∧ FNode.dir nm cs = node0 ∧ d = d0 := by
          simpa [Prod.ext_iff] using hhd
        subst h2
        simp [FNode.listing] at hl
      · rw [crawlLoop_fail cfg gi dp node0 d0 rest none hd0 hl]
        simp only [CrawlResult.delivered_mk, send_none]
        apply List.mem_append_right
        exact ih _ none (crawl_dec1 _ _)
          (fun it hit => hinv it (List.mem_cons_of_mem _ hit)) p nm cs d dirs fname
          htl hmem hok

/-- Completeness of the walk for a never-closing consumer: if some
    frontier directory contains a chain whose every level passes the
    filters, its file is reported. -/
theorem crawlLoop_chain_found (cfg : SearchConfig) (gi : Option GiPred)
    (q : List QItem)
    (hinv : ∀ it ∈ q, it.2.2 ≤ cfg.max_depth)
    (p : RPath) (nm : String) (cs : List FNode) (d : Nat)
    (dirs : List String) (fname : String)
    (hq : (p, FNode.dir nm cs, d) ∈ q)
    (hmem : mkChain dirs fname ∈ cs)
    (hok : chainOk cfg gi p d dirs fname = true) :
    Msg.found (p ++ dirs ++ [fname]) ∈ (crawlLoop cfg gi q none).delivered :=
  crawlLoop_chain_found_aux cfg gi q none hinv p nm cs d dirs fname hq hmem hok

/-- The walk consults the gitignore matcher only through the entry loop. -/
theorem crawlLoop_congr (cfg : SearchConfig) (g1 g2 : Option GiPred)
    (hpe : ∀ dp d cs ch, processEntries cfg g1 dp d cs ch = processEntries cfg g2 dp d cs ch)
    (q : List QItem) (ch : Option Nat) :
    crawlLoop cfg g1 q ch = crawlLoop cfg g2 q ch := by
  induction q, ch using queue_strong_ind with
  | step q ch ih =>
  rcases q with _ | ⟨⟨dp, node, d⟩, rest⟩
  · simp [crawlLoop_nil]
  · by_cases hd : d > cfg.max_depth
    · rw [crawlLoop_deep cfg g1 dp node d rest ch hd,
        crawlLoop_deep cfg g2 dp node d rest ch hd, ih rest ch (crawl_dec1 _ _)]
    · cases hl : node.listing with
      | some children =>
        rw [crawlLoop_dir cfg g1 dp node d rest ch children hd hl,
          crawlLoop_dir cfg g2 dp node d rest ch children hd hl, hpe dp d children ch,
          ih _ _ (crawl_dec2 cfg g2 dp d node children ch rest dp d hl)]
      | none =>
        rw [crawlLoop_fail cfg g1 dp node d rest ch hd hl,
          crawlLoop_fail cfg g2 dp node d rest ch hd hl, ih rest _ (crawl_dec1 _ _)]

/-- A frontier consisting solely of unreadable directories (within
    depth) delivers exactly one failure message per entry, in order. -/
theorem crawlLoop_unreadable (cfg : SearchConfig) (gi : Option GiPred)
    (q : List QItem) (ch : Option Nat)
    (hq : ∀ it ∈ q, (∃ n, it.2.1 = FNode.unreadableDir n) ∧ it.2.2 ≤ cfg.max_depth) :
    (crawlLoop cfg gi q none).delivered = q.map (fun it => Msg.failure it.1) := by
  revert hq
  induction q, ch using queue_strong_ind with
  | step q ch ih =>
  intro hq
  rcases q with _ | ⟨⟨dp, node, d⟩, rest⟩
  · simp [crawlLoop_nil]
  · obtain ⟨⟨n, hn⟩, hdep⟩ := hq (dp, node, d) (List.mem_cons_self _ _)
    simp only at hn hdep
    have hd : ¬ d > cfg.max_depth := by omega
    have hl : node.listing = none := by rw [hn]; rfl
    rw [crawlLoop_fail cfg gi dp node d rest none hd hl]
    simp only [CrawlResult.delivered_mk, send_none, List.map_cons]
    rw [ih rest none (crawl_dec1 _ _) (fun it hit => hq it (List.mem_cons_of_mem _ hit))]
    rfl

/-! ### Message counting (error isolation) -/

def Msg.isFound : Msg → Bool
  | .found _ => true
  | .failure _ => false

def Msg.isFailure : Msg → Bool
  | .failure _ => true
  | .found _ => false

/-- Number of `Ok(path)` messages in a message list. -/
def countFound (ms : List Msg) : Nat := ms.countP Msg.isFound

/-- Number of `Err(e)` messages in a message list. -/
def countFailure (ms : List Msg) : Nat := ms.countP Msg.isFailure

/-- An accessible file child of directory `dp` that passes every filter
    of the configuration. -/
def goodFileAt (cfg : SearchConfig) (gi : Option GiPred) (dp : RPath) : FNode → Bool
  | FNode.file n =>
    !(!cfg.include_gitignored && is_gitignored (dp ++ [n]) false gi) &&
    (!(!cfg.show_hidden && is_hidden (dp ++ [n])) &&
      file_matches (dp ++ [n]) cfg.pattern cfg.extensions)
  | _ => false

/-- An unreadable subdirectory of `dp` that the walk will visit (it
    survives the gitignore and hidden guards). -/
def badDirAt (cfg : SearchConfig) (gi : Option GiPred) (dp : RPath) : FNode → Bool
  | FNode.unreadableDir n =>
    !(!cfg.include_gitignored && is_gitignored (dp ++ [n]) true gi) &&
    !(!cfg.show_hidden && is_hidden (dp ++ [n]))
  | _ => false

/-- A child of `dp` whose metadata query fails and which is not skipped
    by the gitignore guard. -/
def badMetaAt (cfg : SearchConfig) (gi : Option GiPred) (dp : RPath) : FNode → Bool
  | FNode.badMeta n => !(!cfg.include_gitignored && is_gitignored (dp ++ [n]) false gi)
  | _ => false

theorem countFound_append (a b : List Msg) :
    countFound (a ++ b) = countFound a + countFound b := by
  simp [countFound, List.countP_append]

theorem countFailure_append (a b : List Msg) :
    countFailure (a ++ b) = countFailure a + countFailure b := by
  simp [countFailure, List.countP_append]

theorem countFound_cons_found (p : RPath) (ms : List Msg) :
    countFound (Msg.found p :: ms) = countFound ms + 1 :=
  List.countP_cons_of_pos _ _ rfl

theorem countFound_cons_failure (p : RPath) (ms : List Msg) :
    countFound (Msg.failure p :: ms) = countFound ms :=
  List.countP_cons_of_neg _ _ (by simp [Msg.isFound])

theorem countFailure_cons_found (p : RPath) (ms : List Msg) :
    countFailure (Msg.found p :: ms) = countFailure ms :=
  List.countP_cons_of_neg _ _ (by simp [Msg.isFailure])

theorem countFailure_cons_failure (p : RPath) (ms : List Msg) :
    countFailure (Msg.failure p :: ms) = countFailure ms + 1 :=
  List.countP_cons_of_pos _ _ rfl

theorem countFound_failures (l : List QItem) :
    countFound (l.map (fun it => Msg.failure it.1)) = 0 := by
  induction l with
  | nil => rfl
  | cons a l ih => rw [List.map_cons, countFound_cons_failure]; exact ih

theorem countFailure_failures (l : List QItem) :
    countFailure (l.map (fun it => Msg.failure it.1)) = l.length := by
  induction l with
  | nil => rfl
  | cons a l ih => rw [List.map_cons, countFailure_cons_failure, ih, List.length_cons]

/-- Counting the entry loop's output over a listing made up only of
    filter-passing files, unreadable subdirectories and
    metadata-failing entries: one `Ok` per good file, one `Err` per bad
    metadata entry, one queued subdirectory per unreadable directory. -/
theorem processEntries_counts (cfg : SearchConfig) (gi : Option GiPred)
    (dp : RPath) (d : Nat) (hd : d < cfg.max_depth) (cs : List FNode)
    (hall : ∀ c ∈ cs,
      (goodFileAt cfg gi dp c || (badDirAt cfg gi dp c || badMetaAt cfg gi dp c)) = true) :
    countFound (processEntries cfg gi dp d cs none).msgs
        = cs.countP (goodFileAt cfg gi dp) ∧
    countFailure (processEntries cfg gi dp d cs none).msgs
        = cs.countP (badMetaAt cfg gi dp) ∧
    (processEntries cfg gi dp d cs none).queued.length
        = cs.countP (badDirAt cfg gi dp) ∧
    (∀ it ∈ (processEntries cfg gi dp d cs none).queued,
      (∃ n, it.2.1 = FNode.unreadableDir n) ∧ it.2.2 ≤ cfg.max_depth) := by
  induction cs with
  | nil => simp [processEntries, countFound, countFailure]
  | cons c rest ih =>
    have hrest := ih (fun c2 h2 => hall c2 (List.mem_cons_of_mem _ h2))
    obtain ⟨ihF, ihE, ihQ, ihU⟩ := hrest
    rcases Bool.or_eq_true_iff.mp (hall c (List.mem_cons_self _ _)) with hgf | hbad
    · -- a filter-passing file
      cases c with
      | file n =>
        have hgf2 := hgf
        simp only [goodFileAt, Bool.and_eq_true, Bool.not_eq_true'] at hgf
        obtain ⟨hg, hh, hfm⟩ := hgf
        simp only [processEntries, FNode.name, FNode.is_dir, FNode.metaOk, hg, hh, hfm,
          send_none, Bool.false_eq_true, if_false, Bool.not_true, Bool.not_false, if_true,
          EntriesOut.msgs_mk, EntriesOut.queued_mk]
        refine ⟨?_, ?_, ?_, ihU⟩
        · rw [countFound_cons_found, ihF, List.countP_cons_of_pos _ _ hgf2]
        · rw [countFailure_cons_found, ihE,
            List.countP_cons_of_neg _ _ (by simp [badMetaAt])]
        · rw [ihQ, List.countP_cons_of_neg _ _ (by simp [badDirAt])]
      | dir n children => simp [goodFileAt] at hgf
      | unreadableDir n => simp [goodFileAt] at hgf
      | badMeta n => simp [goodFileAt] at hgf
    rcases Bool.or_eq_true_iff.mp hbad with hbd | hbm
    · -- an unreadable subdirectory: it is queued
      cases c with
      | unreadableDir n =>
        have hbd2 := hbd
        simp only [badDirAt, Bool.and_eq_true, Bool.not_eq_true'] at hbd
        obtain ⟨hg, hh⟩ := hbd
        simp only [processEntries, FNode.name, FNode.is_dir, FNode.metaOk, hg, hh, hd,
          send_none, Bool.false_eq_true, if_false, Bool.not_true, Bool.not_false, if_true,
          EntriesOut.msgs_mk, EntriesOut.queued_mk]
        refine ⟨?_, ?_, ?_, ?_⟩
        · rw [ihF, List.countP_cons_of_neg _ _ (by simp [goodFileAt])]
        · rw [ihE, List.countP_cons_of_neg _ _ (by simp [badMetaAt])]
        · rw [List.length_cons, ihQ, List.countP_cons_of_pos _ _ hbd2]
        · intro it hit
          rcases List.mem_cons.mp hit with hit | hit
          · subst hit
            exact ⟨⟨n, rfl⟩, by simp; omega⟩
          · exact ihU it hit
      | file n => simp [badDirAt] at hbd
      | dir n children => simp [badDirAt] at hbd
      | badMeta n => simp [badDirAt] at hbd
    · -- a metadata failure: one Err message
      cases c with
      | badMeta n =>
        have hbm2 := hbm
        simp only [badMetaAt, Bool.not_eq_true'] at hbm
        simp only [processEntries, FNode.name, FNode.is_dir, FNode.metaOk, hbm,
          send_none, Bool.false_eq_true, if_false, Bool.not_true, Bool.not_false, if_true,
          EntriesOut.msgs_mk, EntriesOut.queued_mk, List.singleton_append]
        refine ⟨?_, ?_, ?_, ihU⟩
        · rw [countFound_cons_failure, ihF,
            List.countP_cons_of_neg _ _ (by simp [goodFileAt])]
        · rw [countFailure_cons_failure, ihE, List.countP_cons_of_pos _ _ hbm2]
        · rw [ihQ, List.countP_cons_of_neg _ _ (by simp [badDirAt])]
      | file n => simp [badMetaAt] at hbm
      | dir n children => simp [badMetaAt] at hbm
      | unreadableDir n => simp [badMetaAt] at hbm

/-- Relating a run against a consumer that closes after `k` messages to
    the run against a never-closing consumer: the channel delivers
    exactly the first `k` messages; if the truncated run aborted, it did
    so at a failed `Ok` send after delivering exactly `k` messages. -/
theorem processEntries_take (cfg : SearchConfig) (gi : Option GiPred)
    (dp : RPath) (d : Nat) (cs : List FNode) : ∀ k : Nat,
    (processEntries cfg gi dp d cs (some k)).msgs
      = ((processEntries cfg gi dp d cs none).msgs).take k ∧
    ((processEntries cfg gi dp d cs (some k)).aborted = false →
      (processEntries cfg gi dp d cs (some k)).queued
          = (processEntries cfg gi dp d cs none).queued ∧
      (processEntries cfg gi dp d cs (some k)).ch
          = some (k - (processEntries cfg gi dp d cs none).msgs.length)) ∧
    ((processEntries cfg gi dp d cs (some k)).aborted = true →
      k ≤ (processEntries cfg gi dp d cs none).msgs.length ∧
      (processEntries cfg gi dp d cs (some k)).msgs.length = k) := by
  induction cs with
  | nil =>
    intro k
    simp [processEntries]
  | cons c rest ih =>
    intro k
    by_cases hg : (!cfg.include_gitignored && is_gitignored (dp ++ [c.name]) c.is_dir gi) = true
    · simp only [processEntries, hg, if_true]
      exact ih k
    · rw [Bool.not_eq_true] at hg
      by_cases hmeta : c.metaOk = false
      · -- metadata failure: an Err send, ignored on a closed channel
        cases k with
        | zero =>
          obtain ⟨i1, i2, i3⟩ := ih 0
          simp only [processEntries, hg, hmeta, Bool.false_eq_true, if_false, Bool.not_false,
            if_true, send, EntriesOut.msgs_mk, EntriesOut.queued_mk, EntriesOut.ch_mk,
            EntriesOut.abortFlag_mk, List.singleton_append, List.take_zero, List.nil_append,
            List.take_succ_cons]
          refine ⟨by simpa using i1, ?_, ?_⟩
          · intro hab
            obtain ⟨q1, q2⟩ := i2 hab
            exact ⟨q1, by rw [q2]; congr 1; simp only [List.length_cons]; omega⟩
          · intro hab
            obtain ⟨l1, l2⟩ := i3 hab
            exact ⟨Nat.zero_le _, by simpa using l2⟩
        | succ j =>
          obtain ⟨i1, i2, i3⟩ := ih j
          simp only [processEntries, hg, hmeta, Bool.false_eq_true, if_false, Bool.not_false,
            if_true, send, EntriesOut.msgs_mk, EntriesOut.queued_mk, EntriesOut.ch_mk,
            EntriesOut.abortFlag_mk, List.singleton_append, List.take_succ_cons]
          refine ⟨by rw [i1], ?_, ?_⟩
          · intro hab
            obtain ⟨q1, q2⟩ := i2 hab
            refine ⟨q1, by rw [q2]; congr 1; simp only [List.length_cons]; omega⟩
          · intro hab
            obtain ⟨l1, l2⟩ := i3 hab
            exact ⟨by simp only [List.length_cons]; omega, by simp [l2]⟩
      · rw [Bool.not_eq_false] at hmeta
        by_cases hh : (!cfg.show_hidden && is_hidden (dp ++ [c.name])) = true
        · simp only [processEntries, hg, hmeta, Bool.false_eq_true, if_false, Bool.not_true,
            hh, if_true]
          exact ih k
        · rw [Bool.not_eq_true] at hh
          by_cases hdir : c.is_dir = true
          · rw [hdir] at hg
            by_cases hd : d < cfg.max_depth
            · simp only [processEntries, hg, hmeta, hh, hdir, hd, Bool.false_eq_true,
                if_false, Bool.not_true, if_true, EntriesOut.msgs_mk, EntriesOut.queued_mk,
                EntriesOut.ch_mk, EntriesOut.abortFlag_mk]
              obtain ⟨i1, i2, i3⟩ := ih k
              refine ⟨i1, ?_, i3⟩
              intro hab
              obtain ⟨q1, q2⟩ := i2 hab
              exact ⟨by rw [q1], q2⟩
            · simp only [processEntries, hg, hmeta, hh, hdir, hd, Bool.false_eq_true,
                if_false, Bool.not_true, if_true]
              exact ih k
          · rw [Bool.not_eq_true] at hdir
            rw [hdir] at hg
            by_cases hfm : file_matches (dp ++ [c.name]) cfg.pattern cfg.extensions = true
            · -- a match: the Ok send aborts on a closed channel
              cases k with
              | zero =>
                simp only [processEntries, hg, hmeta, hh, hdir, hfm, Bool.false_eq_true,
                  if_false, Bool.not_true, if_true, send, EntriesOut.msgs_mk,
                  EntriesOut.queued_mk, EntriesOut.ch_mk, EntriesOut.abortFlag_mk,
                  List.take_zero]
                refine ⟨by trivial, ?_, ?_⟩
                · intro hab
                  simp at hab
                · intro _
                  exact ⟨Nat.zero_le _, by trivial⟩
              | succ j =>
                obtain ⟨i1, i2, i3⟩ := ih j
                simp only [processEntries, hg, hmeta, hh, hdir, hfm, Bool.false_eq_true,
                  if_false, Bool.not_true, if_true, send, EntriesOut.msgs_mk,
                  EntriesOut.queued_mk, EntriesOut.ch_mk, EntriesOut.abortFlag_mk,
                  List.take_succ_cons]
                refine ⟨by rw [i1], ?_, ?_⟩
                · intro hab
                  obtain ⟨q1, q2⟩ := i2 hab
                  refine ⟨q1, by rw [q2]; congr 1; simp only [List.length_cons]; omega⟩
                · intro hab
                  obtain ⟨l1, l2⟩ := i3 hab
                  exact ⟨by simp only [List.length_cons]; omega, by simp [l2]⟩
            · simp only [processEntries, hg, hmeta, hh, hdir, hfm, Bool.false_eq_true,
                if_false, Bool.not_true, if_true]
              exact ih k

/-- The channel as seen by a consumer that closes after `k` messages:
    it receives exactly the first `k` messages of the uncancelled walk,
    and if the producer aborted (failed `Ok` send), it had delivered
    exactly `k` messages at that point. -/
theorem crawlLoop_take (cfg : SearchConfig) (gi : Option GiPred) :
    ∀ (q : List QItem) (ch : Option Nat) (k : Nat),
    (crawlLoop cfg gi q (some k)).delivered
      = ((crawlLoop cfg gi q none).delivered).take k ∧
    ((crawlLoop cfg gi q (some k)).aborted = true →
      (crawlLoop cfg gi q (some k)).delivered.length = k) := by
  intro q ch
  induction q, ch using queue_strong_ind with
  | step q ch ih =>
  intro k
  rcases q with _ | ⟨⟨dp, node, d⟩, rest⟩
  · rw [crawlLoop_nil, crawlLoop_nil]
    simp
  · by_cases hd : d > cfg.max_depth
    · rw [crawlLoop_deep cfg gi dp node d rest (some k) hd,
        crawlLoop_deep cfg gi dp node d rest none hd]
      simp only [CrawlResult.delivered_mk, CrawlResult.aborted_mk]
      exact ih rest none (crawl_dec1 _ _) k
    · cases hl : node.listing with
      | some children =>
        rw [crawlLoop_dir cfg gi dp node d rest (some k) children hd hl,
          crawlLoop_dir cfg gi dp node d rest none children hd hl]
        have hnone := processEntries_none cfg gi dp d children
        obtain ⟨t1, t2, t3⟩ := processEntries_take cfg gi dp d children k
        rw [if_neg (show ¬ (processEntries cfg gi dp d children none).aborted = true by
          simp [hnone.2])]
        by_cases hab : (processEntries cfg gi dp d children (some k)).aborted = true
        · rw [if_pos hab]
          simp only [CrawlResult.delivered_mk, CrawlResult.aborted_mk]
          obtain ⟨hk, hlen⟩ := t3 hab
          constructor
          · rw [t1, List.take_append_of_le_length hk]
          · intro _
            exact hlen
        · rw [if_neg hab]
          rw [Bool.not_eq_true] at hab
          obtain ⟨hq, hch⟩ := t2 hab
          simp only [CrawlResult.delivered_mk, CrawlResult.aborted_mk]
          rw [hq, hch, hnone.1]
          obtain ⟨r1, r2⟩ := ih (rest ++ (processEntries cfg gi dp d children none).queued)
            none (crawl_dec2 cfg gi dp d node children none rest dp d hl)
            (k - (processEntries cfg gi dp d children none).msgs.length)
          constructor
          · rw [t1, r1, List.take_append_eq_append_take]
          · intro habr
            rw [t1, List.length_append, List.length_take, r2 habr]
            have : ¬ (processEntries cfg gi dp d children (some k)).aborted = true := by
              simp [hab]
            have hk2 := t3
            omega
      | none =>
        rw [crawlLoop_fail cfg gi dp node d rest (some k) hd hl,
          crawlLoop_fail cfg gi dp node d rest none hd hl]
        simp only [CrawlResult.delivered_mk, CrawlResult.aborted_mk, send_none]
        cases k with
        | zero =>
          simp only [send]
          obtain ⟨r1, r2⟩ := ih rest (some 0) (crawl_dec1 _ _) 0
          constructor
          · simpa using r1
          · intro habr
            simpa using r2 habr
        | succ j =>
          simp only [send]
          obtain ⟨r1, r2⟩ := ih rest (some j) (crawl_dec1 _ _) j
          constructor
          · rw [r1]
            simp [List.take_succ_cons]
          · intro habr
            simp [r2 habr]

/-- Soundness for the listing trace: every directory on which the walk
    invokes `read_dir` has a path satisfying the frontier invariant — in
    particular, under the default policies no listed directory has a
    hidden or gitignore-matched component, i.e. such directories are
    never descended into. -/
theorem crawlLoop_listed_sound (cfg : SearchConfig) (gi : Option GiPred)
    (q : List QItem) (ch : Option Nat)
    (hinv : ∀ it ∈ q, PathOk cfg gi it.1)
    (p : RPath) (hp : p ∈ (crawlLoop cfg gi q ch).listed) : PathOk cfg gi p := by
  revert hinv p hp
  induction q, ch using queue_strong_ind with
  | step q ch ih =>
  intro hinv p hp
  rcases q with _ | ⟨⟨dp, node, d⟩, rest⟩
  · rw [crawlLoop_nil] at hp
    cases hp
  · have hpok := hinv (dp, node, d) (List.mem_cons_self _ _)
    simp only at hpok
    by_cases hd : d > cfg.max_depth
    · rw [crawlLoop_deep cfg gi dp node d rest ch hd] at hp
      simp only [CrawlResult.listed_mk] at hp
      exact ih rest ch (crawl_dec1 _ _) (fun it hit => hinv it (List.mem_cons_of_mem _ hit))
        p hp
    · cases hl : node.listing with
      | some children =>
        rw [crawlLoop_dir cfg gi dp node d rest ch children hd hl] at hp
        have hQ : ∀ it ∈ rest ++ (processEntries cfg gi dp d children ch).queued,
            PathOk cfg gi it.1 := by
          intro it hit
          rcases List.mem_append.mp hit with hit | hit
          · exact hinv it (List.mem_cons_of_mem _ hit)
          · obtain ⟨c, _, hit_eq, _, _, hgin, hhid⟩ :=
              (processEntries_sound cfg gi dp d children ch).2 it hit
            subst hit_eq
            exact hpok.snoc
              (fun hsh => by simpa [is_hidden_append] using hhid hsh) hgin
        split at hp
        · simp only [CrawlResult.listed_mk, List.mem_singleton] at hp
          rw [hp]
          exact hpok
        · simp only [CrawlResult.listed_mk, List.mem_cons] at hp
          rcases hp with hp | hp
          · rw [hp]; exact hpok
          · exact ih _ _ (crawl_dec2 cfg gi dp d node children ch rest dp d hl) hQ p hp
      | none =>
        rw [crawlLoop_fail cfg gi dp node d rest ch hd hl] at hp
        simp only [CrawlResult.listed_mk, List.mem_cons] at hp
        rcases hp with hp | hp
        · rw [hp]; exact hpok
        · exact ih rest _ (crawl_dec1 _ _)
            (fun it hit => hinv it (List.mem_cons_of_mem _ hit)) p hp

/-! ### The claims -/

/-- C8: Universal wildcard — for every string `s`,
    `naive_pattern_match(s, "*")` returns true. -/
theorem claim_C8 (s : String) : naive_pattern_match s "*" = true := by
  simp [naive_pattern_match]

/-- C7: Substring equivalence — for every string `s` and every pattern
    `p` from which all `*` characters have been removed,
    `naive_pattern_match(s, p)` equals `s.contains(p)`. -/
theorem claim_C7 (s p : String) (h : ∀ c ∈ p.data, c ≠ '*') :
    naive_pattern_match s p = strContains s p := by
  have hne : ¬ p = "*" := by
    intro he
    subst he
    exact h '*' (by decide) rfl
  have hfilter : p.data.filter (fun c => c != '*') = p.data :=
    List.filter_eq_self.mpr (fun a ha => by simpa using h a ha)
  simp only [naive_pattern_match, if_neg hne, removeStars, hfilter]

theorem claim_C7_witness :
    (∀ c ∈ ("ell" : String).data, c ≠ '*') ∧
    naive_pattern_match "hello" "ell" = strContains "hello" "ell" :=
  ⟨by decide, claim_C7 "hello" "ell" (by decide)⟩

/-- C6: Extension restriction — with no allowed set the extension filter
    accepts every file; with a set, `file_matches` accepts only files
    whose extension component case-insensitively equals some member, and
    a file with no extension is never accepted. -/
theorem claim_C6 :
    (∀ p : RPath, extension_ok p none = true) ∧
    (∀ (p : RPath) (pat : String) (exts : Option (List String)),
      file_matches p pat exts = true → extension_ok p exts = true) ∧
    (∀ (p : RPath) (l : List String),
      extension_ok p (some l) = true ↔
        ∃ e, pathExtension p = some e ∧ ∃ a ∈ l, eqIgnoreAsciiCase a e = true) ∧
    (∀ (p : RPath) (pat : String) (l : List String),
      pathExtension p = none → file_matches p pat (some l) = false) := by
  refine ⟨fun p => rfl, ?_, ?_, ?_⟩
  · intro p pat exts h
    unfold file_matches at h
    cases hf : fileName p with
    | none => rw [hf] at h; cases h
    | some nm =>
      rw [hf] at h
      by_cases hc : (!(pat == "*") && !(naive_pattern_match nm pat)) = true
      · simp only [hc, if_true] at h
        cases h
      · rw [Bool.not_eq_true] at hc
        simp only [hc, Bool.false_eq_true, if_false] at h
        exact h
  · intro p l
    unfold extension_ok
    cases he : pathExtension p with
    | none => simp
    | some e => simp [List.any_eq_true]
  · intro p pat l he
    have hext : extension_ok p (some l) = false := by
      unfold extension_ok
      rw [he]
    unfold file_matches
    cases hf : fileName p with
    | none => rfl
    | some nm =>
      by_cases hc : (!(pat == "*") && !(naive_pattern_match nm pat)) = true
      · simp only [hc, if_true]
      · rw [Bool.not_eq_true] at hc
        simp only [hc, Bool.false_eq_true, if_false]
        exact hext

theorem claim_C6_witness :
    extension_ok ["a.txt"] none = true ∧
    (file_matches ["a.TXT"] "*" (some ["txt"]) = true ∧
      extension_ok ["a.TXT"] (some ["txt"]) = true) ∧
    extension_ok ["a.txt"] (some ["TXT"]) = true ∧
    (pathExtension ["noext"] = none ∧
      file_matches ["noext"] "*" (some ["txt"]) = false) :=
  ⟨claim_C6.1 _,
    ⟨by decide, claim_C6.2.1 ["a.TXT"] "*" (some ["txt"]) (by decide)⟩,
    (claim_C6.2.2.1 ["a.txt"] ["TXT"]).mpr ⟨"txt", by decide, "TXT", by decide, by decide⟩,
    ⟨by decide, claim_C6.2.2.2 ["noext"] "*" ["txt"] (by decide)⟩⟩

/-- C9: Silent ignore-ruleset fallback — `build_gitignore` yields no
    ruleset whenever `root/.gitignore` is absent or not a regular file,
    `builder.add` errors, or `builder.build` errors; its result type
    carries no error.  With no ruleset, `is_gitignored` is false for
    every path, and the whole walk behaves exactly as with a ruleset
    that ignores nothing. -/
theorem claim_C9 (w : IgnoreWorld) :
    (w.isFile = false → build_gitignore w = none) ∧
    (w.addErr = true → build_gitignore w = none) ∧
    (w.buildResult = none → build_gitignore w = none) ∧
    (∀ (p : RPath) (b : Bool), is_gitignored p b none = false) ∧
    (∀ (root : FNode) (cfg : SearchConfig) (ch : Option Nat),
      crawl_bfs root cfg none ch = crawl_bfs root cfg (some (fun _ _ => false)) ch) := by
  refine ⟨?_, ?_, ?_, fun p b => rfl, ?_⟩
  · intro h
    simp [build_gitignore, h]
  · intro h
    simp [build_gitignore, h]
  · intro h
    simp [build_gitignore, h]
  · intro root cfg ch
    unfold crawl_bfs
    exact crawlLoop_congr cfg none (some fun _ _ => false)
      (fun dp d cs ch2 =>
        @processEntries_congr_gi cfg none (some fun _ _ => false)
          (fun p b => rfl) dp d cs ch2)
      [([], root, 0)] ch

theorem claim_C9_witness :
    build_gitignore ⟨false, false, some (fun _ _ => true)⟩ = none ∧
    build_gitignore ⟨true, true, some (fun _ _ => true)⟩ = none ∧
    build_gitignore ⟨true, false, none⟩ = none ∧
    is_gitignored ["x"] true none = false :=
  ⟨(claim_C9 ⟨false, false, some (fun _ _ => true)⟩).1 rfl,
    (claim_C9 ⟨true, true, some (fun _ _ => true)⟩).2.1 rfl,
    (claim_C9 ⟨true, false, none⟩).2.2.1 rfl,
    (claim_C9 ⟨true, false, none⟩).2.2.2.1 ["x"] true⟩

/-- C10: Frontier depth invariant — the root enters the frontier at
    depth 0 and children are pushed at `depth + 1` only while
    `depth < max_depth`, so every frontier item satisfies
    `depth ≤ max_depth` and the `depth > max_depth` discard branch of
    `crawl_bfs` never fires on any input. -/
theorem claim_C10 (root : FNode) (cfg : SearchConfig) (gi : Option GiPred)
    (ch : Option Nat) : (crawl_bfs root cfg gi ch).discarded = 0 := by
  unfold crawl_bfs
  apply crawlLoop_discarded
  intro it hit
  obtain rfl := List.mem_singleton.mp hit
  exact Nat.zero_le _

/-- C3: Depth boundary — no `Match` is emitted for a file more than
    `max_depth` directory levels below the root (a reported path has at
    most `max_depth + 1` components); with `max_depth = 0` every reported
    path is a single root-level component; and a root-level file passing
    the filters is reported for every `max_depth ≥ 0`. -/
theorem claim_C3 (cfg : SearchConfig) (gi : Option GiPred) :
    (∀ (root : FNode) (ch : Option Nat) (p : RPath),
      Msg.found p ∈ (crawl_bfs root cfg gi ch).delivered →
      p.length ≤ cfg.max_depth + 1) ∧
    (cfg.max_depth = 0 → ∀ (root : FNode) (ch : Option Nat) (p : RPath),
      Msg.found p ∈ (crawl_bfs root cfg gi ch).delivered → ∃ n, p = [n]) ∧
    (∀ (rn : String) (cs : List FNode) (fname : String),
      FNode.file fname ∈ cs → chainOk cfg gi [] 0 [] fname = true →
      Msg.found [fname] ∈ (crawl_bfs (FNode.dir rn cs) cfg gi none).delivered) := by
  have hroot : ∀ (root : FNode),
      ∀ it ∈ [(([] : RPath), root, 0)],
        it.1.length = it.2.2 ∧ it.2.2 ≤ cfg.max_depth ∧ PathOk cfg gi it.1 := by
    intro root it hit
    obtain rfl := List.mem_singleton.mp hit
    exact ⟨rfl, Nat.zero_le _, PathOk.nil cfg gi⟩
  refine ⟨?_, ?_, ?_⟩
  · intro root ch p hp
    obtain ⟨q0, n, hpq, hlen, _⟩ :=
      crawlLoop_found_sound cfg gi [([], root, 0)] ch (hroot root) p hp
    rw [hpq]
    simp
    omega
  · intro h0 root ch p hp
    obtain ⟨q0, n, hpq, hlen, _⟩ :=
      crawlLoop_found_sound cfg gi [([], root, 0)] ch (hroot root) p hp
    rw [h0] at hlen
    have hq0 : q0 = [] := List.eq_nil_of_length_eq_zero (by omega)
    exact ⟨n, by rw [hpq, hq0]; rfl⟩
  · intro rn cs fname hmem hok
    have := crawlLoop_chain_found cfg gi [([], FNode.dir rn cs, 0)]
      (by intro it hit; obtain rfl := List.mem_singleton.mp hit; exact Nat.zero_le _)
      [] rn cs 0 [] fname (List.mem_singleton.mpr rfl) (by simpa [mkChain] using hmem) hok
    simpa using this

theorem claim_C3_witness :
    FNode.file "a.txt" ∈ [FNode.file "a.txt"] ∧
    chainOk ⟨"*", 0, none, false, false⟩ none [] 0 [] "a.txt" = true ∧
    Msg.found ["a.txt"] ∈ (crawl_bfs (FNode.dir "r" [FNode.file "a.txt"])
      ⟨"*", 0, none, false, false⟩ none none).delivered :=
  ⟨List.mem_singleton.mpr rfl, by decide,
    (claim_C3 ⟨"*", 0, none, false, false⟩ none).2.2 "r" [FNode.file "a.txt"] "a.txt"
      (List.mem_singleton.mpr rfl) (by decide)⟩

/-- C5: Hidden exclusion — with `show_hidden = false` no reported path
    contains a component beginning with `.` (hidden files, and anything
    inside a hidden directory, are absent); with `show_hidden = true` a
    chain of entries passing the remaining filters is reported however
    hidden its components are; and a name beginning with `.` is treated
    as hidden by both the Unix and the Windows variants of `is_hidden`. -/
theorem claim_C5 (cfg : SearchConfig) (gi : Option GiPred) :
    (cfg.show_hidden = false →
      ∀ (root : FNode) (ch : Option Nat) (p : RPath) (n : String),
        Msg.found p ∈ (crawl_bfs root cfg gi ch).delivered → n ∈ p →
        startsWithChar n '.' = false) ∧
    (cfg.show_hidden = false →
      ∀ (root : FNode) (ch : Option Nat) (p : RPath) (n : String),
        p ∈ (crawl_bfs root cfg gi ch).listed → n ∈ p →
        startsWithChar n '.' = false) ∧
    (cfg.show_hidden = true →
      ∀ (rn : String) (cs : List FNode) (dirs : List String) (fname : String),
        mkChain dirs fname ∈ cs → chainOk cfg gi [] 0 dirs fname = true →
        Msg.found (dirs ++ [fname]) ∈
          (crawl_bfs (FNode.dir rn cs) cfg gi none).delivered) ∧
    (∀ (p : RPath) (n : String) (attrs : Option Nat),
      fileName p = some n → startsWithChar n '.' = true →
      is_hidden p = true ∧ is_hidden_windows p attrs = true) := by
  refine ⟨?_, ?_, ?_, ?_⟩
  · intro hsh root ch p n hp hn
    obtain ⟨q0, n0, hpq, _, hpok, hhid, _⟩ :=
      crawlLoop_found_sound cfg gi [([], root, 0)] ch
        (by
          intro it hit
          obtain rfl := List.mem_singleton.mp hit
          exact ⟨rfl, Nat.zero_le _, PathOk.nil cfg gi⟩) p hp
    rw [hpq] at hn
    rcases List.mem_append.mp hn with hn | hn
    · exact hpok.1 hsh n hn
    · rw [List.mem_singleton.mp hn]
      exact hhid hsh
  · intro hsh root ch p n hp hn
    have hpok := crawlLoop_listed_sound cfg gi [([], root, 0)] ch
      (by
        intro it hit
        obtain rfl := List.mem_singleton.mp hit
        exact PathOk.nil cfg gi) p hp
    exact hpok.1 hsh n hn
  · intro _ rn cs dirs fname hmem hok
    have := crawlLoop_chain_found cfg gi [([], FNode.dir rn cs, 0)]
      (by intro it hit; obtain rfl := List.mem_singleton.mp hit; exact Nat.zero_le _)
      [] rn cs 0 dirs fname (List.mem_singleton.mpr rfl) hmem hok
    simpa using this
  · intro p n attrs hf hdot
    unfold is_hidden is_hidden_windows
    rw [hf]
    simp [hdot]

theorem claim_C5_witness :
    is_hidden [".h"] = true ∧
    Msg.found [".h", ".sec.txt"] ∈ (crawl_bfs
      (FNode.dir "r" [mkChain [".h"] ".sec.txt"])
      ⟨"*", 5, none, true, false⟩ none none).delivered :=
  ⟨((claim_C5 ⟨"*", 5, none, true, false⟩ none).2.2.2 [".h"] ".h" none rfl (by decide)).1,
    (claim_C5 ⟨"*", 5, none, true, false⟩ none).2.2.1 rfl "r" [mkChain [".h"] ".sec.txt"]
      [".h"] ".sec.txt" (List.mem_singleton.mpr rfl) (by decide)⟩

/-- C4: Ignore default-on — with `include_gitignored = false` no
    reported path was matched by the ignore ruleset: the file itself is
    unmatched and every consulted ancestor directory is unmatched (an
    ignored entry is neither reported nor descended into); with
    `include_gitignored = true` the walk is identical to the walk with
    no ignore file at all. -/
theorem claim_C4 (cfg : SearchConfig) (g : GiPred) :
    (cfg.include_gitignored = false →
      ∀ (root : FNode) (ch : Option Nat) (p : RPath),
        Msg.found p ∈ (crawl_bfs root cfg (some g) ch).delivered →
        g p false = false ∧
        (∀ (q : RPath) (n : String) (r : RPath),
          p = q ++ n :: r → r ≠ [] → g (q ++ [n]) true = false)) ∧
    (cfg.include_gitignored = false →
      ∀ (root : FNode) (ch : Option Nat) (p : RPath),
        p ∈ (crawl_bfs root cfg (some g) ch).listed →
        ∀ (q : RPath) (n : String) (r : RPath),
          p = q ++ n :: r → g (q ++ [n]) true = false) ∧
    (cfg.include_gitignored = true →
      ∀ (root : FNode) (ch : Option Nat),
        crawl_bfs root cfg (some g) ch = crawl_bfs root cfg none ch) := by
  refine ⟨?_, ?_, ?_⟩
  · intro hinc root ch p hp
    obtain ⟨q0, n0, hpq, _, hpok, _, hgf, _⟩ :=
      crawlLoop_found_sound cfg (some g) [([], root, 0)] ch
        (by
          intro it hit
          obtain rfl := List.mem_singleton.mp hit
          exact ⟨rfl, Nat.zero_le _, PathOk.nil cfg (some g)⟩) p hp
    refine ⟨hgf hinc, ?_⟩
    intro q n r hdec hr
    rw [hpq] at hdec
    rcases split_of_append_last q n r q0 n0 hdec.symm with ⟨hre, _, _⟩ | ⟨r2, _, hq0⟩
    · exact absurd hre hr
    · exact hpok.2 hinc q n r2 hq0
  · intro hinc root ch p hp
    have hpok := crawlLoop_listed_sound cfg (some g) [([], root, 0)] ch
      (by
        intro it hit
        obtain rfl := List.mem_singleton.mp hit
        exact PathOk.nil cfg (some g)) p hp
    exact hpok.2 hinc
  · intro hinc root ch
    unfold crawl_bfs
    exact crawlLoop_congr cfg (some g) none
      (fun dp d cs ch2 =>
        processEntries_include_any cfg hinc (some g) none dp d cs ch2)
      [([], root, 0)] ch

theorem claim_C4_witness :
    (fun (p : RPath) (_ : Bool) => decide (p = ["debug.log"])) ["notes.txt"] false
      = false :=
  ((claim_C4 ⟨"*", 3, none, true, false⟩
      (fun (p : RPath) (_ : Bool) => decide (p = ["debug.log"]))).1 rfl
    (FNode.dir "r" [FNode.file "notes.txt", FNode.file "debug.log"]) none ["notes.txt"]
    (by simp +decide [crawl_bfs, crawlLoop, processEntries, send, is_gitignored,
      is_hidden, fileName, startsWithChar, FNode.is_dir, FNode.name, FNode.metaOk,
      FNode.listing, file_matches, naive_pattern_match, extension_ok])).1

/-- C1: Error isolation — over a root directory whose entries are
    filter-passing files, unreadable subdirectories and entries with
    failing metadata, the walk (with a draining consumer and
    `max_depth > 0`) delivers exactly one `Ok` per file, exactly one
    `Err` per failing entry or unreadable directory — failures never
    erase matches nor end the walk — and at least one `Err` when some
    bad entry exists. -/
theorem claim_C1 (cfg : SearchConfig) (gi : Option GiPred) (rn : String)
    (cs : List FNode) (hd : 0 < cfg.max_depth)
    (hall : ∀ c ∈ cs,
      (goodFileAt cfg gi [] c || (badDirAt cfg gi [] c || badMetaAt cfg gi [] c)) = true)
    (hbad : ∃ c ∈ cs, (badDirAt cfg gi [] c || badMetaAt cfg gi [] c) = true) :
    countFound (crawl_bfs (FNode.dir rn cs) cfg gi none).delivered
        = cs.countP (goodFileAt cfg gi []) ∧
    countFailure (crawl_bfs (FNode.dir rn cs) cfg gi none).delivered
        = cs.countP (badMetaAt cfg gi []) + cs.countP (badDirAt cfg gi []) ∧
    1 ≤ countFailure (crawl_bfs (FNode.dir rn cs) cfg gi none).delivered := by
  obtain ⟨cF, cE, cQ, cU⟩ := processEntries_counts cfg gi [] 0 hd cs hall
  have hnone := processEntries_none cfg gi [] 0 cs
  unfold crawl_bfs
  rw [crawlLoop_dir cfg gi [] (FNode.dir rn cs) 0 [] none cs (by omega) rfl]
  rw [if_neg (by simp [hnone.2]), hnone.1]
  simp only [CrawlResult.delivered_mk, List.nil_append]
  rw [crawlLoop_unreadable cfg gi (processEntries cfg gi [] 0 cs none).queued none cU]
  rw [countFound_append, countFailure_append, countFound_failures, countFailure_failures,
    cF, cE, cQ]
  refine ⟨by omega, rfl, ?_⟩
  obtain ⟨c, hc, hcbad⟩ := hbad
  rcases Bool.or_eq_true_iff.mp hcbad with hcb | hcb
  · have : 0 < cs.countP (badDirAt cfg gi []) := List.countP_pos.mpr ⟨c, hc, hcb⟩
    omega
  · have : 0 < cs.countP (badMetaAt cfg gi []) := List.countP_pos.mpr ⟨c, hc, hcb⟩
    omega

theorem claim_C1_witness :
    countFound (crawl_bfs
      (FNode.dir "r" [FNode.file "a.txt", FNode.unreadableDir "locked", FNode.file "b.rs"])
      ⟨"*", 5, none, false, false⟩ none none).delivered = 2 ∧
    countFailure (crawl_bfs
      (FNode.dir "r" [FNode.file "a.txt", FNode.unreadableDir "locked", FNode.file "b.rs"])
      ⟨"*", 5, none, false, false⟩ none none).delivered = 1 := by
  have h := claim_C1 ⟨"*", 5, none, false, false⟩ none "r"
    [FNode.file "a.txt", FNode.unreadableDir "locked", FNode.file "b.rs"]
    (by decide) (by decide)
    ⟨FNode.unreadableDir "locked", List.mem_cons_of_mem _ (List.mem_cons_self _ _),
      by decide⟩
  exact ⟨h.1.trans (by decide), h.2.1.trans (by decide)⟩

/-- C2 counterexample: the consumer closes the channel before receiving
    anything (`some 0`), the tree holds two empty subdirectories and no
    file, and yet the producer lists the entire frontier (root and both
    subdirectories) and runs to natural completion — it does not stop
    listing and does not terminate early, refuting the claim as stated. -/
theorem claim_C2_counterexample :
    (crawl_bfs (FNode.dir "r" [FNode.dir "a" [], FNode.dir "b" []])
      ⟨"*", 9, none, false, false⟩ none (some 0)).listed = [[], ["a"], ["b"]] ∧
    (crawl_bfs (FNode.dir "r" [FNode.dir "a" [], FNode.dir "b" []])
      ⟨"*", 9, none, false, false⟩ none (some 0)).delivered = [] ∧
    (crawl_bfs (FNode.dir "r" [FNode.dir "a" [], FNode.dir "b" []])
      ⟨"*", 9, none, false, false⟩ none (some 0)).aborted = false := by
  refine ⟨?_, ?_, ?_⟩ <;>
    simp +decide [crawl_bfs, crawlLoop, processEntries, send, is_gitignored, is_hidden,
      fileName, startsWithChar, FNode.is_dir, FNode.name, FNode.metaOk, FNode.listing,
      file_matches, naive_pattern_match, extension_ok]

/-- C2 amended: after the consumer closes the channel having accepted
    `k` messages, no further message is delivered — the delivered stream
    is exactly the first `k` messages of the uncancelled walk, and
    closure is never surfaced to the consumer as an error; the producer
    terminates early only at its next attempted `Match` send (`Failure`
    sends into the closed channel are silently dropped and the walk may
    keep listing), and when it does terminate that way it has delivered
    exactly `k` messages. -/
theorem claim_C2_amended (root : FNode) (cfg : SearchConfig) (gi : Option GiPred)
    (k : Nat) :
    (crawl_bfs root cfg gi (some k)).delivered
      = ((crawl_bfs root cfg gi none).delivered).take k ∧
    ((crawl_bfs root cfg gi (some k)).aborted = true →
      (crawl_bfs root cfg gi (some k)).delivered.length = k) := by
  unfold crawl_bfs
  exact crawlLoop_take cfg gi [([], root, 0)] none k

theorem claim_C2_amended_witness :
    (crawl_bfs (FNode.dir "r" [FNode.file "a.txt", FNode.file "b.txt"])
      ⟨"*", 5, none, false, false⟩ none (some 1)).delivered
      = ((crawl_bfs (FNode.dir "r" [FNode.file "a.txt", FNode.file "b.txt"])
        ⟨"*", 5, none, false, false⟩ none none).delivered).take 1 ∧
    (crawl_bfs (FNode.dir "r" [FNode.file "a.txt", FNode.file "b.txt"])
      ⟨"*", 5, none, false, false⟩ none (some 1)).delivered.length = 1 :=
  ⟨(claim_C2_amended (FNode.dir "r" [FNode.file "a.txt", FNode.file "b.txt"])
      ⟨"*", 5, none, false, false⟩ none 1).1,
    (claim_C2_amended (FNode.dir "r" [FNode.file "a.txt", FNode.file "b.txt"])
      ⟨"*", 5, none, false, false⟩ none 1).2
      (by simp +decide [crawl_bfs, crawlLoop, processEntries, send, is_gitignored,
        is_hidden, fileName, startsWithChar, FNode.is_dir, FNode.name, FNode.metaOk,
        FNode.listing, file_matches, naive_pattern_match, extension_ok])⟩

end FS
